import Mathlib

/-!
Verification of `src/defutilite.py` (DefUtilite), a small filesystem
housekeeping utility.  The filesystem is modelled as a finite tree of
named entries; a directory's contents are the `EntryList` of its
children.  The state handled by every operation is the list of children
of the root directory passed on the command line: the root itself is
never an operand of any of the utility's functions (`os.walk(root)`
only ever yields names of entries strictly below `root`, and only
`Path(current_root) / name` paths are matched, deleted or pruned), so a
root-relative path is a nonempty list of name components.

Machine-level failure modes are modelled by two per-entry attributes:
`ro` (the Windows read-only attribute cleared by
`os.chmod(path, stat.S_IWRITE)`: an `os.unlink`/`os.rmdir` on an entry
fails exactly when its `ro` flag is set) and, for files, `statOk`
(whether `Path.stat()` succeeds on the file, the failure branch of
`calculate_folder_size`).  Python `float` arithmetic in `human_size` is
modelled exactly: `float(size)` rounds the integer half-to-even to 53
significant bits and raises `OverflowError` when the rounded value
reaches `2^1024` (`floatOfNat`); after that every value the loop
computes is `float(size) / 1024**i`, and dividing an IEEE double by
1024 only changes the exponent, so each is an exact rational with the
integer `float(size)` as numerator and a power of 1024 as denominator.
-/

mutual
/-- A filesystem entry: a regular file (with its `st_size` and the two
attribute flags described in the header) or a directory with its
children. -/
inductive Entry where
  | file (name : String) (size : Nat) (ro : Bool) (statOk : Bool)
  | dir (name : String) (ro : Bool) (children : EntryList)
/-- The ordered contents of a directory (the order `os.scandir` reports,
hence the order `os.walk` iterates). -/
inductive EntryList where
  | nil
  | cons (e : Entry) (es : EntryList)
end

/-- The bare name of an entry (what `fnmatch` is applied to). -/
def Entry.name : Entry → String
  | .file n _ _ _ => n
  | .dir n _ _ => n

/-- `Path.is_dir()` at the moment of inspection. -/
def Entry.isDir : Entry → Bool
  | .file _ _ _ _ => false
  | .dir _ _ _ => true

/-- The read-only attribute of an entry. -/
def Entry.ro : Entry → Bool
  | .file _ _ r _ => r
  | .dir _ r _ => r

/-- `any(target.iterdir())` is false exactly when the listing is empty. -/
def EntryList.isEmpty : EntryList → Bool
  | .nil => true
  | .cons _ _ => false

/-- First entry with the given name in a directory listing (a real
directory has at most one, see `wf`). -/
def findName : EntryList → String → Option Entry
  | .nil, _ => none
  | .cons e es, n => if e.name == n then some e else findName es n

/-- Does any entry of the listing carry this name? -/
def anyName : EntryList → String → Bool
  | .nil, _ => false
  | .cons e es, n => e.name == n || anyName es n

/-- Filesystem well-formedness: inside any one directory all names are
distinct (true of every real directory tree; the OS enforces it). -/
def wf : EntryList → Bool
  | .nil => true
  | .cons (.file n _ _ _) es => !anyName es n && wf es
  | .cons (.dir n _ ch) es => !anyName es n && wf ch && wf es

/-- Resolve a root-relative path to the entry it denotes, if any.
Resolution at each level picks the entry carrying the name (unique in a
well-formed tree) and can only continue through directories. -/
def lookup : EntryList → List String → Option Entry
  | _, [] => none
  | es, n :: rest =>
    match findName es n with
    | none => none
    | some e =>
      match rest, e with
      | [], _ => some e
      | _ :: _, .dir _ _ ch => lookup ch rest
      | _ :: _, .file _ _ _ _ => none

/-- Induction over the filesystem tree: a proof for `nil`, for a file
cons (using the tail) and for a directory cons (using the children and
the tail) proves every listing. -/
def EntryList.treeInd {motive : EntryList → Prop}
    (hnil : motive .nil)
    (hfile : ∀ n sz ro ok es, motive es → motive (.cons (.file n sz ro ok) es))
    (hdir : ∀ n ro ch es, motive ch → motive es → motive (.cons (.dir n ro ch) es)) :
    ∀ es, motive es
  | .nil => hnil
  | .cons (.file n sz ro ok) es =>
    hfile n sz ro ok es (treeInd hnil hfile hdir es)
  | .cons (.dir n ro ch) es =>
    hdir n ro ch es (treeInd hnil hfile hdir ch) (treeInd hnil hfile hdir es)

/-! ## `fnmatch.fnmatch`: shell-wildcard name matching

CPython's `fnmatch` translates the pattern to a regular expression:
`*` becomes `.*`, `?` becomes `.`, and `[seq]` a character class (with
`!` negation, a `]` first in the class taken literally, an unclosed `[`
taken literally, and `a-b` ranges; an inverted range such as `[z-a]`
matches nothing).  We compile the pattern to tokens and match directly;
`os.path.normcase` is the identity on POSIX, so names are compared
case-sensitively. -/

/-- Split a bracket-class body at its closing `]`, returning the content
and the rest of the pattern, or `none` when the class is unclosed. -/
def splitBracket : List Char → Option (List Char × List Char)
  | [] => none
  | c :: cs =>
    if c == ']' then some ([], cs)
    else
      match splitBracket cs with
      | none => none
      | some (content, rest) => some (c :: content, rest)

/-- Items of a bracket class: `a-b` is the inclusive range `(a, b)`, a
lone character `c` the degenerate range `(c, c)`.  A `-` that cannot
start or finish a range is literal, as in a regular-expression class. -/
def bracketItems : List Char → List (Char × Char)
  | a :: '-' :: b :: rest => (a, b) :: bracketItems rest
  | a :: rest => (a, a) :: bracketItems rest
  | [] => []

/-- Parse the pattern after a `[`: an optional leading `!` negates, a
`]` immediately after it is literal content, and the class runs to the
next `]`.  `none` means the `[` is unclosed and stands for itself. -/
def parseBracket (ps : List Char) : Option (Bool × List (Char × Char) × List Char) :=
  let negSplit : Bool × List Char :=
    match ps with
    | '!' :: t => (true, t)
    | _ => (false, ps)
  match negSplit with
  | (neg, ps1) =>
    match ps1 with
    | ']' :: t =>
      match splitBracket t with
      | none => none
      | some (content, rest) => some (neg, bracketItems (']' :: content), rest)
    | _ =>
      match splitBracket ps1 with
      | none => none
      | some (content, rest) => some (neg, bracketItems content, rest)

/-- One compiled token of a glob pattern. -/
inductive GlobTok where
  | star
  | qmark
  | lit (c : Char)
  | cls (neg : Bool) (items : List (Char × Char))

/-- Tokenize a glob pattern; the fuel (initially the pattern length) is
an upper bound on the number of tokens, each of which consumes at least
one character. -/
def tokenizeF : Nat → List Char → List GlobTok
  | 0, _ => []
  | _ + 1, [] => []
  | f + 1, '*' :: cs => .star :: tokenizeF f cs
  | f + 1, '?' :: cs => .qmark :: tokenizeF f cs
  | f + 1, '[' :: cs =>
    (match parseBracket cs with
     | none => .lit '[' :: tokenizeF f cs
     | some (neg, items, rest) => .cls neg items :: tokenizeF f rest)
  | f + 1, c :: cs => .lit c :: tokenizeF f cs

/-- Compile a glob pattern to its token list. -/
def tokenize (p : List Char) : List GlobTok := tokenizeF p.length p

/-- Does a character fall in one of the class's ranges? -/
def inBracket (items : List (Char × Char)) (c : Char) : Bool :=
  items.any (fun ab => decide (ab.1 ≤ c) && decide (c ≤ ab.2))

/-- Match a token list against a full name (`re.match(..., name)` with a
trailing `\Z`: the whole name must be consumed).  `star` matches any
run of characters, including the empty one. -/
def tokMatch : List GlobTok → List Char → Bool
  | [], s => s.isEmpty
  | .star :: ts, s => s.tails.any (fun suf => tokMatch ts suf)
  | .qmark :: ts, s =>
    (match s with
     | [] => false
     | _ :: s1 => tokMatch ts s1)
  | .lit c :: ts, s =>
    (match s with
     | [] => false
     | c1 :: s1 => c == c1 && tokMatch ts s1)
  | .cls neg items :: ts, s =>
    (match s with
     | [] => false
     | c1 :: s1 => (inBracket items c1 != neg) && tokMatch ts s1)

/-- `fnmatch.fnmatch(name, pattern)` (POSIX `normcase` is the
identity). -/
def fnmatch (name pattern : String) : Bool :=
  tokMatch (tokenize pattern.data) name.data

/-! ## `find_paths` (src/defutilite.py lines 21-37)

`os.walk(root)` visits every directory top-down; at each directory the
code first appends matching directory names (when `include_dirs`), then
matching file names, then the walk descends into each subdirectory in
listing order; finally the list is `sorted()`.  `sorted` on `Path`
objects orders by the tuple of path components: `PurePath.__lt__`
compares the case-normalized parts list (`_cparts` on CPython 3.11 and
earlier, `_parts_normcase` — the normalized string split at the
separator — on 3.12+), tuples lexicographically and each component by
string code points.  This is NOT the order of the joined path strings:
the two differ whenever a name contains a code point below `/`
(U+002F), such as `.`. -/

/-- The full path string of a root-relative path. -/
def pathString (p : List String) : String := String.intercalate "/" p

/-- Non-strict lexicographic (code-point) order on strings as
character lists. -/
def charListLe : List Char → List Char → Bool
  | [], _ => true
  | _ :: _, [] => false
  | a :: as, b :: bs => decide (a < b) || (a == b && charListLe as bs)

/-- The order the specification asserts for `find` output: by full
path string.  `sorted()` on `Path` objects does NOT use it (it orders
by the components tuple, `partsLe`); this definition only states the
spec's words, for the comparison in
`find_paths_string_order_counterexample`. -/
def pathLe (p q : List String) : Prop :=
  charListLe (pathString p).data (pathString q).data = true

instance : DecidableRel pathLe := fun _ _ => instDecidableEqBool _ _

/-- Strict lexicographic (code-point) order on strings as character
lists — Python's `str` `<`. -/
def charListLt : List Char → List Char → Bool
  | [], [] => false
  | [], _ :: _ => true
  | _ :: _, [] => false
  | a :: as, b :: bs => decide (a < b) || (a == b && charListLt as bs)

/-- CPython `PurePath` ordering on root-relative paths: Python tuple
comparison of the components lists — a component `<` decides, equal
components recurse, and a prefix sorts first. -/
def partsLeB : List String → List String → Bool
  | [], _ => true
  | _ :: _, [] => false
  | a :: as, b :: bs => charListLt a.data b.data || (a == b && partsLeB as bs)

/-- `partsLeB` as a relation: the order `sorted(matches)` uses. -/
def partsLe (p q : List String) : Prop := partsLeB p q = true

instance : DecidableRel partsLe := fun _ _ => instDecidableEqBool _ _

/-- Matching directory names of one listing (the `for directory in
dirs` loop body), as single-component paths. -/
def dirMatches (pat : String) : EntryList → List (List String)
  | .nil => []
  | .cons e es =>
    if e.isDir && fnmatch e.name pat then [e.name] :: dirMatches pat es
    else dirMatches pat es

/-- Matching file names of one listing (the `for file_name in files`
loop body). -/
def fileMatches (pat : String) : EntryList → List (List String)
  | .nil => []
  | .cons e es =>
    if !e.isDir && fnmatch e.name pat then [e.name] :: fileMatches pat es
    else fileMatches pat es

/-- The matches contributed while visiting one directory: its matching
subdirectory names (only when `include_dirs`), then its matching file
names. -/
def matchesHere (es : EntryList) (pat : String) (incl : Bool) : List (List String) :=
  (if incl then dirMatches pat es else []) ++ fileMatches pat es

/-- Matches found strictly below the current directory: the walk
descends into each subdirectory in listing order, collecting that
subtree's matches under the subdirectory's name. -/
def collectSub (pat : String) (incl : Bool) : EntryList → List (List String)
  | .nil => []
  | .cons (.file _ _ _ _) es => collectSub pat incl es
  | .cons (.dir n _ ch) es =>
    ((matchesHere ch pat incl ++ collectSub pat incl ch).map (fun q => n :: q))
      ++ collectSub pat incl es

/-- All matches of the walk, in the order `os.walk` produces them. -/
def collectAll (es : EntryList) (pat : String) (incl : Bool) : List (List String) :=
  matchesHere es pat incl ++ collectSub pat incl es

/-- `find_paths(root, pattern, include_dirs)`: the walk's matches,
`sorted()` by `PurePath` components-tuple order (insertion sort is
stable, as Python's `sorted` is, so the result list is identical). -/
def find_paths (es : EntryList) (pattern : String) (include_dirs : Bool) : List (List String) :=
  List.insertionSort partsLe (collectAll es pattern include_dirs)

/-! ## `delete_paths` (src/defutilite.py lines 40-62) and the
read-only remediation handler `_on_rm_error` (lines 15-18)

For each path the loop body runs under a `try`.  In dry-run mode it
only prints and increments `deleted`.  Otherwise, a directory is
removed with `shutil.rmtree(path, onerror=_on_rm_error)`: whenever an
internal `os.unlink`/`os.rmdir` fails (in this model, exactly when the
entry's read-only attribute is set), `rmtree` calls the handler, which
clears the attribute (`os.chmod(path, stat.S_IWRITE)`) and retries that
one removal once (`func(path)`); a failure of the retry would propagate
out of `rmtree`.  A non-directory path is removed with
`path.unlink(missing_ok=True)`, so an absent path is a success and a
read-only file an error (no handler is installed for `unlink`).  Any
exception increments `errors` and the loop continues. -/

/-- The bare OS removal of one entry (`os.unlink` / `os.rmdir`): it
fails exactly when the entry's read-only attribute is set. -/
def osRemove (ro : Bool) : Except Unit Unit :=
  if ro then .error () else .ok ()

/-- `_on_rm_error(func, path, exc_info)` wrapped around the first
attempt: if the removal fails, clear the read-only attribute
(`os.chmod(path, stat.S_IWRITE)`, leaving the flag `false`) and retry
the removal exactly once. -/
def on_rm_error_retry (ro : Bool) : Except Unit Unit :=
  match osRemove ro with
  | .ok _ => .ok ()
  | .error _ => osRemove false

/-- Did an `Except`-valued removal succeed? -/
def exceptOk : Except Unit Unit → Bool
  | .ok _ => true
  | .error _ => false

mutual
/-- Does `shutil.rmtree(e, onerror=_on_rm_error)` run to completion?
`rmtree` removes the children of a directory first and then the
directory itself; every individual removal is attempted with the
remediating handler. -/
def rmtreeOk : Entry → Bool
  | .file _ _ ro _ => exceptOk (on_rm_error_retry ro)
  | .dir _ ro ch => rmtreeListOk ch && exceptOk (on_rm_error_retry ro)
/-- `rmtreeOk` over a listing. -/
def rmtreeListOk : EntryList → Bool
  | .nil => true
  | .cons e es => rmtreeOk e && rmtreeListOk es
end

/-- Remove the first entry with the given name from a listing. -/
def removeName : EntryList → String → EntryList
  | .nil, _ => .nil
  | .cons e es, n => if e.name == n then es else .cons e (removeName es n)

/-- Apply `f` to the children of the first directory named `n` (a file
of that name is left unchanged). -/
def mapName : EntryList → String → (EntryList → EntryList) → EntryList
  | .nil, _, _ => .nil
  | .cons e es, n, f =>
    if e.name == n then
      (match e with
       | .dir nm ro ch => EntryList.cons (.dir nm ro (f ch)) es
       | fe => .cons fe es)
    else .cons e (mapName es n f)

/-- Remove the whole subtree denoted by a root-relative path (no-op
when the path does not resolve). -/
def removeAt : EntryList → List String → EntryList
  | es, [] => es
  | es, [n] => removeName es n
  | es, n :: rest => mapName es n (fun ch => removeAt ch rest)

/-- One iteration of the live deletion loop on one path: `is_dir()`
paths go through `rmtree` with the remediating handler (which, the
only failures being read-only attributes, always completes); other
paths go through `unlink(missing_ok=True)`, so an absent path succeeds
without any change and a read-only file raises. -/
def attemptDelete (fs : EntryList) (p : List String) : Except Unit EntryList :=
  match lookup fs p with
  | some e =>
    if e.isDir then
      if rmtreeOk e then .ok (removeAt fs p) else .error ()
    else if e.ro then .error () else .ok (removeAt fs p)
  | none => .ok fs

/-- `delete_paths(paths, dry_run)`: returns the final tree together
with the `(deleted, errors)` tally.  Dry-run only counts; live mode
counts a success per completed removal and an error per caught
exception, and always continues with the next path. -/
def delete_paths (fs : EntryList) (paths : List (List String)) (dry_run : Bool) :
    EntryList × Nat × Nat :=
  match paths with
  | [] => (fs, 0, 0)
  | p :: ps =>
    if dry_run then
      let r := delete_paths fs ps dry_run
      (r.1, r.2.1 + 1, r.2.2)
    else
      match attemptDelete fs p with
      | .ok fs1 =>
        let r := delete_paths fs1 ps dry_run
        (r.1, r.2.1 + 1, r.2.2)
      | .error _ =>
        let r := delete_paths fs ps dry_run
        (r.1, r.2.1, r.2.2 + 1)

/-- `delete_by_name(root, pattern, dry_run)` (lines 65-75): find all
matches (directories included), delete them, exit 0 when no errors
occurred (also when nothing was found) and 1 otherwise.  The final
tree is returned alongside the exit status. -/
def delete_by_name (fs : EntryList) (pattern : String) (dry_run : Bool) :
    EntryList × Nat :=
  let paths := find_paths fs pattern true
  if paths.isEmpty then (fs, 0)
  else
    let r := delete_paths fs paths dry_run
    (r.1, if r.2.2 = 0 then 0 else 1)

/-! ## `calculate_folder_size` (lines 78-88) and `human_size` (91-99) -/

/-- `calculate_folder_size(root)`: walk the tree and sum `st_size` over
every regular file whose `stat()` succeeds; a failing `stat` is skipped
(`except OSError: continue`), and directories contribute nothing. -/
def calculate_folder_size : EntryList → Nat
  | .nil => 0
  | .cons (.file _ sz _ ok) es =>
    (if ok then sz else 0) + calculate_folder_size es
  | .cons (.dir _ _ ch) es => calculate_folder_size ch + calculate_folder_size es

/-- Specification view: every regular file under the root, as a
`(st_size, stat succeeds)` pair, in walk order. -/
def allFiles : EntryList → List (Nat × Bool)
  | .nil => []
  | .cons (.file _ sz _ ok) es => (sz, ok) :: allFiles es
  | .cons (.dir _ _ ch) es => allFiles ch ++ allFiles es

/-- The units ladder of `human_size`. -/
def sizeUnits : List String := ["B", "KB", "MB", "GB", "TB"]

/-- Hundredths of `num / den`, rounded half-to-even — exactly the value
`"%.2f"` prints for an IEEE double whose exact value is `num / den`.
`human_size` only reaches it with `num` the integer value of
`float(size)` and `den` a power of 1024 not exceeding the integer
part, so the quotient is exactly representable (see the file
header). -/
def round2 (num den : Nat) : Nat :=
  let q := (100 * num) / den
  let r := (100 * num) % den
  if 2 * r < den then q
  else if den < 2 * r then q + 1
  else if q % 2 = 0 then q else q + 1

/-- Two-digit zero-padding of the fractional part. -/
def pad2 (n : Nat) : String :=
  if n < 10 then "0" ++ toString n else toString n

/-- `f"{num/den:.2f}"` for a nonnegative exactly-representable binary
quotient. -/
def format2 (num den : Nat) : String :=
  let m := round2 num den
  toString (m / 100) ++ "." ++ pad2 (m % 100)

/-- Number of binary digits of a natural number (Python's
`int.bit_length`).  The fuel only bounds the recursion depth, which is
the bit length itself, and `bitlen n <= n` always, so `n` is enough
fuel. -/
def bitLenF : Nat → Nat → Nat
  | 0, _ => 0
  | f + 1, n => if n = 0 then 0 else bitLenF f (n / 2) + 1

/-- `n.bit_length()`. -/
def bitLen (n : Nat) : Nat := bitLenF n n

/-- The integer value of `float(size)` for a Python `int`: CPython
rounds half-to-even to 53 significant bits and raises `OverflowError`
(modelled as `none`) when the rounded value reaches `2^1024`.  Every
finite double of magnitude at least `2^52` is an integer, so the
result is an exact natural number; below `2^53` the conversion is the
identity. -/
def floatOfNat (n : Nat) : Option Nat :=
  if n < 2 ^ 53 then some n
  else
    let k := bitLen n - 53
    let u := 2 ^ k
    let q := n / u
    let r := n % u
    let rounded :=
      if 2 * r < u then q
      else if u < 2 * r then q + 1
      else if q % 2 = 0 then q else q + 1
    if rounded * u < 2 ^ 1024 then some (rounded * u) else none

/-- The formatting loop of `human_size` applied to the integer value of
`float(size)`: at step `i` the running float `result` is exactly
`float(size) / 1024**i` (`den = 1024**i`); the loop returns at the
first unit with `result < 1024` and unconditionally at the last unit
(`unit == units[-1]`), otherwise divides by 1024.  The `nil` case is
the function's unreachable final `return f"{size} B"`. -/
def human_size_go : List String → Nat → Nat → String
  | [], size, _ => toString size ++ " B"
  | u :: us, size, den =>
    if size < 1024 * den || us.isEmpty then format2 size den ++ " " ++ u
    else human_size_go us size (den * 1024)

/-- `human_size(size)`: `result = float(size)` — which raises
`OverflowError` for huge integers, modelled as `.error` — then the
unit loop on the exact integer value of that float. -/
def human_size (size : Nat) : Except Unit String :=
  match floatOfNat size with
  | none => .error ()
  | some f => .ok (human_size_go sizeUnits f 1)

/-! ## `remove_empty_dirs` (lines 102-124)

`os.walk(root, topdown=False)` lists a directory before descending but
yields it after all its descendants, so when `(current_root, dirs, _)` 
is processed every subtree below `current_root` is already final, and
removals triggered at `current_root` only touch its direct children —
the pre-scanned `dirs` names are still exactly its current child
directories.  The body re-reads each child with `target.iterdir()`,
removes it with `target.rmdir()` when empty (in this model `rmdir`
fails exactly on a read-only directory; the exception is counted and
the pass continues), and in dry-run mode only counts.  The root itself
is never a removal target: only `Path(current_root) / directory`
children are. -/

/-- `remove_empty_dirs(root, dry_run)` on the root's children,
returning the final tree and the `(removed, errors)` tally. -/
def remove_empty_dirs : EntryList → Bool → EntryList × Nat × Nat
  | .nil, _ => (.nil, 0, 0)
  | .cons (.file n sz ro ok) es, dry =>
    let rs := remove_empty_dirs es dry
    (.cons (.file n sz ro ok) rs.1, rs.2.1, rs.2.2)
  | .cons (.dir n ro ch) es, dry =>
    let rc := remove_empty_dirs ch dry
    let rs := remove_empty_dirs es dry
    if rc.1.isEmpty then
      if dry then (.cons (.dir n ro rc.1) rs.1, rc.2.1 + rs.2.1 + 1, rc.2.2 + rs.2.2)
      else if ro then (.cons (.dir n ro rc.1) rs.1, rc.2.1 + rs.2.1, rc.2.2 + rs.2.2 + 1)
      else (rs.1, rc.2.1 + rs.2.1 + 1, rc.2.2 + rs.2.2)
    else (.cons (.dir n ro rc.1) rs.1, rc.2.1 + rs.2.1, rc.2.2 + rs.2.2)

/-- Directories that are empty in the unmodified tree (exactly the
candidates a dry run reports; the root is not an entry and is never
counted). -/
def count_empty_now : EntryList → Nat
  | .nil => 0
  | .cons (.file _ _ _ _) es => count_empty_now es
  | .cons (.dir _ _ ch) es =>
    (if ch.isEmpty then 1 else 0) + count_empty_now ch + count_empty_now es

/-- Does the subtree rooted at this listing contain any regular file? -/
def hasFile : EntryList → Bool
  | .nil => false
  | .cons (.file _ _ _ _) _ => true
  | .cons (.dir _ _ ch) es => hasFile ch || hasFile es

/-- Specification view of an error-free live pruning pass: a directory
survives exactly when its subtree contains a regular file (otherwise
the bottom-up cascade empties and removes it in the same pass). -/
def pruneLive : EntryList → EntryList
  | .nil => .nil
  | .cons (.file n sz ro ok) es => .cons (.file n sz ro ok) (pruneLive es)
  | .cons (.dir n ro ch) es =>
    if hasFile ch then .cons (.dir n ro (pruneLive ch)) (pruneLive es)
    else pruneLive es

/-- Directories an error-free live pass removes: those whose subtree
contains no regular file. -/
def count_prunable : EntryList → Nat
  | .nil => 0
  | .cons (.file _ _ _ _) es => count_prunable es
  | .cons (.dir _ _ ch) es =>
    (if hasFile ch then 0 else 1) + count_prunable ch + count_prunable es

/-- No directory anywhere in the listing carries the read-only
attribute (so no `rmdir` can fail). -/
def noRoDirs : EntryList → Bool
  | .nil => true
  | .cons (.file _ _ _ _) es => noRoDirs es
  | .cons (.dir _ ro ch) es => !ro && noRoDirs ch && noRoDirs es

/-- Every directory in the listing is nonempty, recursively (the state
an error-free pruning pass leaves behind). -/
def noEmptyDirs : EntryList → Bool
  | .nil => true
  | .cons (.file _ _ _ _) es => noEmptyDirs es
  | .cons (.dir _ _ ch) es => !ch.isEmpty && noEmptyDirs ch && noEmptyDirs es

/-! ## Sample trees (used to instantiate the theorems below) -/

/-- `a.tmp`, `b.log`, `nested/c.tmp` — the repository's own test tree. -/
def sampleFs : EntryList :=
  .cons (.file "a.tmp" 1 false true)
    (.cons (.file "b.log" 1 false true)
      (.cons (.dir "nested" false (.cons (.file "c.tmp" 1 false true) .nil)) .nil))

/-- `sampleFs` after a live `delete-name "*.tmp"`. -/
def sampleFsAfter : EntryList :=
  .cons (.file "b.log" 1 false true) (.cons (.dir "nested" false .nil) .nil)

/-- A read-only directory holding a read-only file. -/
def sampleRo : EntryList :=
  .cons (.dir "d" true (.cons (.file "x" 1 true true) .nil)) .nil

/-- `root/a/b` with both `a` and `b` empty apart from `b` itself. -/
def sampleAB : EntryList :=
  .cons (.dir "a" false (.cons (.dir "b" false .nil) .nil)) .nil

/-- File `a.c` beside directory `a` holding `b.c`: the tree on which
`PurePath` parts ordering and full-path-string ordering disagree
(`.` is U+002E, `/` is U+002F). -/
def exC1 : EntryList :=
  .cons (.file "a.c" 1 false true)
    (.cons (.dir "a" false (.cons (.file "b.c" 1 false true) .nil)) .nil)

/-- `file1.txt`, `empty_dir/`, `non_empty/file2.txt` — the repository's
other test tree. -/
def sampleCleanup : EntryList :=
  .cons (.file "file1.txt" 4 false true)
    (.cons (.dir "empty_dir" false .nil)
      (.cons (.dir "non_empty" false (.cons (.file "file2.txt" 2 false true) .nil)) .nil))

/-! ## Helper lemmas: the path order is a total preorder -/

theorem charListLt_trans : ∀ a b c : List Char,
    charListLt a b = true → charListLt b c = true → charListLt a c = true := by
  intro a
  induction a with
  | nil =>
    intro b c h1 h2
    cases c with
    | nil => cases b <;> simp [charListLt] at h2
    | cons z zs => simp [charListLt]
  | cons x xs ih =>
    intro b c h1 h2
    cases b with
    | nil => simp [charListLt] at h1
    | cons y ys =>
      cases c with
      | nil => simp [charListLt] at h2
      | cons z zs =>
        simp only [charListLt, Bool.or_eq_true, Bool.and_eq_true, decide_eq_true_eq,
          beq_iff_eq] at h1 h2 ⊢
        rcases h1 with h1 | ⟨rfl, h1⟩
        · rcases h2 with h2 | ⟨rfl, _⟩
          · exact Or.inl (lt_trans h1 h2)
          · exact Or.inl h1
        · rcases h2 with h2 | ⟨rfl, h2⟩
          · exact Or.inl h2
          · exact Or.inr ⟨rfl, ih _ _ h1 h2⟩

theorem charListLt_or_eq_or_gt : ∀ a b : List Char,
    charListLt a b = true ∨ a = b ∨ charListLt b a = true := by
  intro a
  induction a with
  | nil =>
    intro b
    cases b with
    | nil => exact Or.inr (Or.inl rfl)
    | cons y ys => exact Or.inl (by simp [charListLt])
  | cons x xs ih =>
    intro b
    cases b with
    | nil => exact Or.inr (Or.inr (by simp [charListLt]))
    | cons y ys =>
      rcases lt_trichotomy x y with h | h | h
      · exact Or.inl (by simp [charListLt, h])
      · subst h
        rcases ih ys with h | h | h
        · exact Or.inl (by simp [charListLt, h])
        · exact Or.inr (Or.inl (by rw [h]))
        · exact Or.inr (Or.inr (by simp [charListLt, h]))
      · exact Or.inr (Or.inr (by simp [charListLt, h]))

theorem partsLeB_trans : ∀ p q r : List String,
    partsLeB p q = true → partsLeB q r = true → partsLeB p r = true := by
  intro p
  induction p with
  | nil => intro q r _ _; rfl
  | cons a as ih =>
    intro q r h1 h2
    cases q with
    | nil => simp [partsLeB] at h1
    | cons b bs =>
      cases r with
      | nil => simp [partsLeB] at h2
      | cons c cs =>
        simp only [partsLeB, Bool.or_eq_true, Bool.and_eq_true, beq_iff_eq] at h1 h2 ⊢
        rcases h1 with h1 | ⟨rfl, h1⟩
        · rcases h2 with h2 | ⟨rfl, _⟩
          · exact Or.inl (charListLt_trans _ _ _ h1 h2)
          · exact Or.inl h1
        · rcases h2 with h2 | ⟨rfl, h2⟩
          · exact Or.inl h2
          · exact Or.inr ⟨rfl, ih _ _ h1 h2⟩

theorem partsLeB_total : ∀ p q : List String,
    partsLeB p q = true ∨ partsLeB q p = true := by
  intro p
  induction p with
  | nil => intro q; exact Or.inl rfl
  | cons a as ih =>
    intro q
    cases q with
    | nil => exact Or.inr rfl
    | cons b bs =>
      rcases charListLt_or_eq_or_gt a.data b.data with h | h | h
      · exact Or.inl (by simp [partsLeB, h])
      · have hab : a = b := by
          cases a with
          | mk da =>
            cases b with
            | mk db => exact congrArg String.mk (by simpa using h)
        subst hab
        rcases ih bs with h2 | h2
        · exact Or.inl (by simp [partsLeB, h2])
        · exact Or.inr (by simp [partsLeB, h2])
      · exact Or.inr (by simp [partsLeB, h])

instance : IsTrans (List String) partsLe :=
  ⟨fun p q r h1 h2 => partsLeB_trans p q r h1 h2⟩

instance : IsTotal (List String) partsLe :=
  ⟨fun p q => partsLeB_total p q⟩

theorem mem_find_paths_iff_collectAll (es : EntryList) (pat : String) (incl : Bool)
    (q : List String) : q ∈ find_paths es pat incl ↔ q ∈ collectAll es pat incl :=
  (List.perm_insertionSort partsLe (collectAll es pat incl)).mem_iff

theorem find_paths_sorted (es : EntryList) (pat : String) (incl : Bool) :
    List.Sorted partsLe (find_paths es pat incl) :=
  List.sorted_insertionSort partsLe (collectAll es pat incl)

/-! ## Helper lemmas: names, `findName`, well-formedness -/

theorem findName_name : ∀ (es : EntryList) (n : String) (e : Entry),
    findName es n = some e → e.name = n := by
  intro es
  induction es using EntryList.treeInd with
  | hnil => intro n e h; simp [findName] at h
  | hfile nm sz ro ok es ih =>
    intro n e h
    simp only [findName] at h
    by_cases hn : Entry.name (.file nm sz ro ok) = n
    · simp [hn] at h; subst h; exact hn
    · simp [hn] at h; exact ih n e h
  | hdir nm ro ch es ihc ihe =>
    intro n e h
    simp only [findName] at h
    by_cases hn : Entry.name (.dir nm ro ch) = n
    · simp [hn] at h; subst h; exact hn
    · simp [hn] at h; exact ihe n e h

theorem findName_eq_none_of_anyName : ∀ (es : EntryList) (n : String),
    anyName es n = false → findName es n = none := by
  intro es
  induction es using EntryList.treeInd with
  | hnil => intro n _; simp [findName]
  | hfile nm sz ro ok es ih =>
    intro n h
    simp only [anyName, Bool.or_eq_false_iff, beq_eq_false_iff_ne] at h
    simp [findName, h.1, ih n h.2]
  | hdir nm ro ch es ihc ihe =>
    intro n h
    simp only [anyName, Bool.or_eq_false_iff, beq_eq_false_iff_ne] at h
    simp [findName, h.1, ihe n h.2]

theorem anyName_of_findName : ∀ (es : EntryList) (n : String) (e : Entry),
    findName es n = some e → anyName es n = true := by
  intro es n e h
  by_cases ha : anyName es n = true
  · exact ha
  · rw [findName_eq_none_of_anyName es n (by simpa using ha)] at h
    exact Option.noConfusion h

/-! ## Membership characterisation of the walk's matches -/

theorem mem_map_cons_iff {n : String} {q : List String} {L : List (List String)} :
    q ∈ L.map (fun r => n :: r) ↔ ∃ r, q = n :: r ∧ r ∈ L := by
  rw [List.mem_map]
  constructor
  · rintro ⟨r, hr, rfl⟩; exact ⟨r, rfl, hr⟩
  · rintro ⟨r, rfl, hr⟩; exact ⟨r, hr, rfl⟩

theorem mem_collectAll_parts {pat : String} {incl : Bool} (es : EntryList)
    {q : List String} :
    q ∈ collectAll es pat incl ↔
      (incl = true ∧ q ∈ dirMatches pat es) ∨ q ∈ fileMatches pat es ∨
        q ∈ collectSub pat incl es := by
  cases incl <;> simp [collectAll, matchesHere, or_assoc]

theorem mem_collectAll_cons_file {pat : String} {incl : Bool} {n : String} {sz : Nat}
    {ro ok : Bool} {es : EntryList} {q : List String} :
    q ∈ collectAll (.cons (.file n sz ro ok) es) pat incl ↔
      (fnmatch n pat = true ∧ q = [n]) ∨ q ∈ collectAll es pat incl := by
  by_cases hm : fnmatch n pat = true <;>
    cases incl <;>
      simp [collectAll, matchesHere, dirMatches, fileMatches, collectSub, Entry.isDir,
        Entry.name, hm] <;> tauto

theorem mem_collectAll_cons_dir {pat : String} {incl : Bool} {n : String}
    {ro : Bool} {ch es : EntryList} {q : List String} :
    q ∈ collectAll (.cons (.dir n ro ch) es) pat incl ↔
      (incl = true ∧ fnmatch n pat = true ∧ q = [n]) ∨
      (∃ r, q = n :: r ∧ r ∈ collectAll ch pat incl) ∨
      q ∈ collectAll es pat incl := by
  rw [show collectAll (.cons (.dir n ro ch) es) pat incl =
      matchesHere (.cons (.dir n ro ch) es) pat incl ++
        ((collectAll ch pat incl).map (fun r => n :: r) ++ collectSub pat incl es)
    from rfl]
  have hdm : dirMatches pat (.cons (.dir n ro ch) es) =
      if fnmatch n pat = true then [n] :: dirMatches pat es else dirMatches pat es := by
    simp [dirMatches, Entry.isDir, Entry.name]
  have hfm : fileMatches pat (.cons (.dir n ro ch) es) = fileMatches pat es := by
    simp [fileMatches, Entry.isDir]
  rw [List.mem_append, List.mem_append, mem_map_cons_iff,
    show (q ∈ matchesHere (.cons (.dir n ro ch) es) pat incl ↔
      (incl = true ∧ q ∈ dirMatches pat (.cons (.dir n ro ch) es)) ∨
        q ∈ fileMatches pat (.cons (.dir n ro ch) es)) by
      cases incl <;> simp [matchesHere], hdm, hfm,
    mem_collectAll_parts es]
  by_cases hm : fnmatch n pat = true <;> cases incl <;> simp [hm] <;> aesop

theorem collectAll_head (pat : String) (incl : Bool) : ∀ (es : EntryList)
    (q : List String), q ∈ collectAll es pat incl →
    ∃ n r, q = n :: r ∧ anyName es n = true := by
  intro es
  induction es using EntryList.treeInd with
  | hnil =>
    intro q hq
    simp [collectAll, matchesHere, dirMatches, fileMatches, collectSub] at hq
  | hfile n sz ro ok es ih =>
    intro q hq
    rcases mem_collectAll_cons_file.mp hq with ⟨_, rfl⟩ | hq
    · exact ⟨n, [], rfl, by simp [anyName, Entry.name]⟩
    · rcases ih q hq with ⟨m, r, rfl, hm⟩
      exact ⟨m, r, rfl, by simp [anyName, hm]⟩
  | hdir n ro ch es ihc ihe =>
    intro q hq
    rcases mem_collectAll_cons_dir.mp hq with ⟨_, _, rfl⟩ | ⟨r, rfl, _⟩ | hq
    · exact ⟨n, [], rfl, by simp [anyName, Entry.name]⟩
    · exact ⟨n, r, rfl, by simp [anyName, Entry.name]⟩
    · rcases ihe q hq with ⟨m, r, rfl, hm⟩
      exact ⟨m, r, rfl, by simp [anyName, hm]⟩

theorem not_nil_mem_collectAll {pat : String} {incl : Bool} {es : EntryList}
    (h : ([] : List String) ∈ collectAll es pat incl) : False := by
  rcases collectAll_head pat incl es [] h with ⟨n, r, hnr, _⟩
  exact List.noConfusion hnr

/-- The walk's matches are exactly the entries below the root whose bare
name matches the pattern, directories included exactly when
`include_dirs` is set. -/
theorem mem_collectAll_iff (pat : String) (incl : Bool) : ∀ (es : EntryList),
    wf es = true → ∀ q : List String,
    (q ∈ collectAll es pat incl ↔
      ∃ e, lookup es q = some e ∧ fnmatch e.name pat = true ∧
        (incl = true ∨ e.isDir = false)) := by
  intro es
  induction es using EntryList.treeInd with
  | hnil =>
    intro _ q
    constructor
    · intro hq
      exact absurd hq (by simp [collectAll, matchesHere, dirMatches, fileMatches, collectSub])
    · rintro ⟨e, he, -, -⟩
      cases q <;> simp [lookup, findName] at he
  | hfile n sz ro ok es ih =>
    intro hwf q
    simp only [wf, Bool.and_eq_true, Bool.not_eq_true'] at hwf
    obtain ⟨hany, hwfes⟩ := hwf
    rw [mem_collectAll_cons_file]
    cases q with
    | nil =>
      simp only [lookup]
      constructor
      · rintro (⟨-, h⟩ | h)
        · exact List.noConfusion h
        · exact absurd h not_nil_mem_collectAll
      · rintro ⟨e, he, -⟩; exact Option.noConfusion he
    | cons m qrest =>
      by_cases hmn : n = m
      · subst hmn
        constructor
        · rintro (⟨hm, hq⟩ | h)
          · obtain ⟨-, rfl⟩ : n = n ∧ qrest = [] := by
              constructor
              · rfl
              · injection hq
            exact ⟨.file n sz ro ok, by simp [lookup, findName, Entry.name],
              by simpa [Entry.name] using hm, Or.inr (by simp [Entry.isDir])⟩
          · rcases collectAll_head pat incl es (n :: qrest) h with ⟨m1, r1, hq1, hm1⟩
            have hnm1 : n = m1 := by injection hq1
            rw [← hnm1, hany] at hm1
            exact Bool.noConfusion hm1
        · rintro ⟨e, he, hm, -⟩
          simp only [lookup, findName, Entry.name, beq_self_eq_true, if_true] at he
          cases qrest with
          | nil =>
            have he2 : Entry.file n sz ro ok = e := by injection he
            subst he2
            exact Or.inl ⟨by simpa [Entry.name] using hm, rfl⟩
          | cons a b => exact Option.noConfusion he
      · have hskip : lookup (.cons (.file n sz ro ok) es) (m :: qrest) =
            lookup es (m :: qrest) := by
          simp only [lookup, findName, Entry.name]
          rw [if_neg (by simpa using hmn)]
        rw [hskip]
        constructor
        · rintro (⟨-, hq⟩ | h)
          · have : m = n := by injection hq
            exact absurd this.symm hmn
          · exact (ih hwfes (m :: qrest)).mp h
        · intro h
          exact Or.inr ((ih hwfes (m :: qrest)).mpr h)
  | hdir n ro ch es ihc ihe =>
    intro hwf q
    simp only [wf, Bool.and_eq_true, Bool.not_eq_true'] at hwf
    obtain ⟨⟨hany, hwfch⟩, hwfes⟩ := hwf
    rw [mem_collectAll_cons_dir]
    cases q with
    | nil =>
      simp only [lookup]
      constructor
      · rintro (⟨-, -, h⟩ | ⟨r, h, -⟩ | h)
        · exact List.noConfusion h
        · exact List.noConfusion h
        · exact absurd h not_nil_mem_collectAll
      · rintro ⟨e, he, -⟩; exact Option.noConfusion he
    | cons m qrest =>
      by_cases hmn : n = m
      · subst hmn
        have hfind : findName (.cons (.dir n ro ch) es) n = some (.dir n ro ch) := by
          simp [findName, Entry.name]
        constructor
        · rintro (⟨hincl, hm, hq⟩ | ⟨r, hq, hr⟩ | h)
          · have hq2 : qrest = [] := by injection hq
            subst hq2
            exact ⟨.dir n ro ch, by simp [lookup, hfind],
              by simpa [Entry.name] using hm, Or.inl hincl⟩
          · have hq2 : qrest = r := by injection hq
            subst hq2
            cases qrest with
            | nil => exact absurd hr not_nil_mem_collectAll
            | cons a b =>
              rcases (ihc hwfch (a :: b)).mp hr with ⟨e, he, hm, hd⟩
              refine ⟨e, ?_, hm, hd⟩
              simp only [lookup, hfind]
              exact he
          · rcases collectAll_head pat incl es (n :: qrest) h with ⟨m1, r1, hq1, hm1⟩
            have hnm1 : n = m1 := by injection hq1
            rw [← hnm1, hany] at hm1
            exact Bool.noConfusion hm1
        · rintro ⟨e, he, hm, hd⟩
          cases qrest with
          | nil =>
            simp only [lookup, hfind] at he
            have he2 : Entry.dir n ro ch = e := by injection he
            subst he2
            rcases hd with hincl | hdir
            · exact Or.inl ⟨hincl, by simpa [Entry.name] using hm, rfl⟩
            · simp [Entry.isDir] at hdir
          | cons a b =>
            simp only [lookup, hfind] at he
            exact Or.inr (Or.inl ⟨a :: b, rfl, (ihc hwfch (a :: b)).mpr ⟨e, he, hm, hd⟩⟩)
      · have hskip : lookup (.cons (.dir n ro ch) es) (m :: qrest) =
            lookup es (m :: qrest) := by
          simp only [lookup, findName, Entry.name]
          rw [if_neg (by simpa using hmn)]
        rw [hskip]
        constructor
        · rintro (⟨-, -, hq⟩ | ⟨r, hq, -⟩ | h)
          · have : m = n := by injection hq
            exact absurd this.symm hmn
          · have : m = n := by injection hq
            exact absurd this.symm hmn
          · exact (ihe hwfes (m :: qrest)).mp h
        · intro h
          exact Or.inr (Or.inr ((ihe hwfes (m :: qrest)).mpr h))

/-! ## Helper lemmas: the remediating handler makes `rmtree` total -/

theorem on_rm_error_retry_ok : ∀ ro : Bool, on_rm_error_retry ro = .ok () := by
  intro ro
  cases ro <;> rfl

theorem rmtreeListOk_total : ∀ es : EntryList, rmtreeListOk es = true := by
  intro es
  induction es using EntryList.treeInd with
  | hnil => rfl
  | hfile n sz ro ok es ih =>
    simp [rmtreeListOk, rmtreeOk, on_rm_error_retry_ok, exceptOk, ih]
  | hdir n ro ch es ihc ihe =>
    simp [rmtreeListOk, rmtreeOk, on_rm_error_retry_ok, exceptOk, ihc, ihe]

theorem rmtreeOk_total : ∀ e : Entry, rmtreeOk e = true := by
  intro e
  cases e with
  | file n sz ro ok => simp [rmtreeOk, on_rm_error_retry_ok, exceptOk]
  | dir n ro ch => simp [rmtreeOk, on_rm_error_retry_ok, exceptOk, rmtreeListOk_total]

/-! ## Helper lemmas: `removeName`, `mapName`, `removeAt` -/

theorem findName_removeName_ne : ∀ (es : EntryList) (n m : String), n ≠ m →
    findName (removeName es n) m = findName es m := by
  intro es
  induction es using EntryList.treeInd with
  | hnil => intro n m _; simp [removeName]
  | hfile nm sz ro ok es ih =>
    intro n m hnm
    by_cases h1 : nm = n
    · subst h1
      simp only [removeName, Entry.name, beq_self_eq_true, if_true]
      have h2 : nm ≠ m := hnm
      simp [findName, Entry.name, h2]
    · simp only [removeName, Entry.name]
      rw [if_neg (by simpa using h1)]
      by_cases h2 : nm = m
      · simp [findName, Entry.name, h2]
      · simp [findName, Entry.name, h2, ih n m hnm]
  | hdir nm ro ch es ihc ihe =>
    intro n m hnm
    by_cases h1 : nm = n
    · subst h1
      simp only [removeName, Entry.name, beq_self_eq_true, if_true]
      have h2 : nm ≠ m := hnm
      simp [findName, Entry.name, h2]
    · simp only [removeName, Entry.name]
      rw [if_neg (by simpa using h1)]
      by_cases h2 : nm = m
      · simp [findName, Entry.name, h2]
      · simp [findName, Entry.name, h2, ihe n m hnm]

theorem findName_removeName_self : ∀ (es : EntryList) (n : String), wf es = true →
    findName (removeName es n) n = none := by
  intro es
  induction es using EntryList.treeInd with
  | hnil => intro n _; simp [removeName, findName]
  | hfile nm sz ro ok es ih =>
    intro n hwf
    simp only [wf, Bool.and_eq_true, Bool.not_eq_true'] at hwf
    obtain ⟨hany, hwfes⟩ := hwf
    by_cases h1 : nm = n
    · subst h1
      simp only [removeName, Entry.name, beq_self_eq_true, if_true]
      exact findName_eq_none_of_anyName es nm hany
    · simp only [removeName, Entry.name]
      rw [if_neg (by simpa using h1)]
      simp [findName, Entry.name, h1, ih n hwfes]
  | hdir nm ro ch es ihc ihe =>
    intro n hwf
    simp only [wf, Bool.and_eq_true, Bool.not_eq_true'] at hwf
    obtain ⟨⟨hany, _⟩, hwfes⟩ := hwf
    by_cases h1 : nm = n
    · subst h1
      simp only [removeName, Entry.name, beq_self_eq_true, if_true]
      exact findName_eq_none_of_anyName es nm hany
    · simp only [removeName, Entry.name]
      rw [if_neg (by simpa using h1)]
      simp [findName, Entry.name, h1, ihe n hwfes]

theorem findName_mapName_ne : ∀ (es : EntryList) (n m : String)
    (f : EntryList → EntryList), n ≠ m →
    findName (mapName es n f) m = findName es m := by
  intro es
  induction es using EntryList.treeInd with
  | hnil => intro n m f _; simp [mapName]
  | hfile nm sz ro ok es ih =>
    intro n m f hnm
    by_cases h1 : nm = n
    · subst h1
      simp only [mapName, Entry.name, beq_self_eq_true, if_true]
    · simp only [mapName, Entry.name]
      rw [if_neg (by simpa using h1)]
      by_cases h2 : nm = m
      · simp [findName, Entry.name, h2]
      · simp [findName, Entry.name, h2, ih n m f hnm]
  | hdir nm ro ch es ihc ihe =>
    intro n m f hnm
    by_cases h1 : nm = n
    · subst h1
      simp only [mapName, Entry.name, beq_self_eq_true, if_true]
      have h2 : nm ≠ m := hnm
      simp [findName, Entry.name, h2]
    · simp only [mapName, Entry.name]
      rw [if_neg (by simpa using h1)]
      by_cases h2 : nm = m
      · simp [findName, Entry.name, h2]
      · simp [findName, Entry.name, h2, ihe n m f hnm]

theorem findName_mapName_self : ∀ (es : EntryList) (n : String)
    (f : EntryList → EntryList),
    findName (mapName es n f) n =
      (match findName es n with
       | some (.dir nm ro ch) => some (.dir nm ro (f ch))
       | some (.file a b c d) => some (.file a b c d)
       | none => none) := by
  intro es
  induction es using EntryList.treeInd with
  | hnil => intro n f; simp [mapName, findName]
  | hfile nm sz ro ok es ih =>
    intro n f
    by_cases h1 : nm = n
    · subst h1
      simp [mapName, findName, Entry.name]
    · simp only [mapName, Entry.name]
      rw [if_neg (by simpa using h1)]
      simp only [findName, Entry.name]
      rw [if_neg (by simpa using h1), if_neg (by simpa using h1)]
      exact ih n f
  | hdir nm ro ch es ihc ihe =>
    intro n f
    by_cases h1 : nm = n
    · subst h1
      simp [mapName, findName, Entry.name]
    · simp only [mapName, Entry.name]
      rw [if_neg (by simpa using h1)]
      simp only [findName, Entry.name]
      rw [if_neg (by simpa using h1), if_neg (by simpa using h1)]
      exact ihe n f

theorem wf_findName_dir : ∀ (es : EntryList) (n nm : String) (ro : Bool)
    (ch : EntryList), wf es = true → findName es n = some (.dir nm ro ch) →
    wf ch = true := by
  intro es
  induction es using EntryList.treeInd with
  | hnil => intro n nm ro ch _ h; simp [findName] at h
  | hfile nm1 sz ro1 ok es ih =>
    intro n nm ro ch hwf h
    simp only [wf, Bool.and_eq_true, Bool.not_eq_true'] at hwf
    simp only [findName, Entry.name] at h
    by_cases he : nm1 = n
    · rw [if_pos (by simpa using he)] at h
      simp at h
    · rw [if_neg (by simpa using he)] at h
      exact ih n nm ro ch hwf.2 h
  | hdir nm1 ro1 ch1 es ihc ihe =>
    intro n nm ro ch hwf h
    simp only [wf, Bool.and_eq_true, Bool.not_eq_true'] at hwf
    obtain ⟨⟨_, hwfch⟩, hwfes⟩ := hwf
    simp only [findName, Entry.name] at h
    by_cases he : nm1 = n
    · rw [if_pos (by simpa using he)] at h
      simp only [Option.some.injEq, Entry.dir.injEq] at h
      obtain ⟨-, -, rfl⟩ := h
      exact hwfch
    · rw [if_neg (by simpa using he)] at h
      exact ihe n nm ro ch hwfes h

theorem lookup_removeAt_self : ∀ (p : List String) (es : EntryList),
    wf es = true → lookup (removeAt es p) p = none := by
  intro p
  induction p with
  | nil => intro es _; simp [removeAt, lookup]
  | cons n rest ih =>
    intro es hwf
    cases rest with
    | nil =>
      show lookup (removeName es n) [n] = none
      simp only [lookup, findName_removeName_self es n hwf]
    | cons r rs =>
      show lookup (mapName es n (fun ch => removeAt ch (r :: rs))) (n :: r :: rs) = none
      simp only [lookup]
      rw [findName_mapName_self es n (fun ch => removeAt ch (r :: rs))]
      cases hfe : findName es n with
      | none => simp
      | some e =>
        cases e with
        | file a b c d => simp
        | dir nm ro1 ch =>
          simp only
          exact ih ch (wf_findName_dir es n nm ro1 ch hwf hfe)

theorem anyName_removeName : ∀ (es : EntryList) (n m : String),
    anyName (removeName es n) m = true → anyName es m = true := by
  intro es
  induction es using EntryList.treeInd with
  | hnil => intro n m h; simpa [removeName] using h
  | hfile nm sz ro ok es ih =>
    intro n m h
    by_cases h1 : nm = n
    · subst h1
      simp only [removeName, Entry.name, beq_self_eq_true, if_true] at h
      simp [anyName, h]
    · simp only [removeName, Entry.name] at h
      rw [if_neg (by simpa using h1)] at h
      simp only [anyName, Entry.name, Bool.or_eq_true] at h ⊢
      rcases h with h | h
      · exact Or.inl h
      · exact Or.inr (ih n m h)
  | hdir nm ro ch es ihc ihe =>
    intro n m h
    by_cases h1 : nm = n
    · subst h1
      simp only [removeName, Entry.name, beq_self_eq_true, if_true] at h
      simp [anyName, h]
    · simp only [removeName, Entry.name] at h
      rw [if_neg (by simpa using h1)] at h
      simp only [anyName, Entry.name, Bool.or_eq_true] at h ⊢
      rcases h with h | h
      · exact Or.inl h
      · exact Or.inr (ihe n m h)

theorem wf_removeName : ∀ (es : EntryList) (n : String), wf es = true →
    wf (removeName es n) = true := by
  intro es
  induction es using EntryList.treeInd with
  | hnil => intro n _; simp [removeName, wf]
  | hfile nm sz ro ok es ih =>
    intro n hwf
    simp only [wf, Bool.and_eq_true, Bool.not_eq_true'] at hwf
    obtain ⟨hany, hwfes⟩ := hwf
    by_cases h1 : nm = n
    · subst h1
      simp only [removeName, Entry.name, beq_self_eq_true, if_true]
      exact hwfes
    · simp only [removeName, Entry.name]
      rw [if_neg (by simpa using h1)]
      simp only [wf, Bool.and_eq_true, Bool.not_eq_true']
      refine ⟨?_, ih n hwfes⟩
      by_cases h2 : anyName (removeName es n) nm = true
      · rw [anyName_removeName es n nm h2] at hany
        exact Bool.noConfusion hany
      · simpa using h2
  | hdir nm ro ch es ihc ihe =>
    intro n hwf
    simp only [wf, Bool.and_eq_true, Bool.not_eq_true'] at hwf
    obtain ⟨⟨hany, hwfch⟩, hwfes⟩ := hwf
    by_cases h1 : nm = n
    · subst h1
      simp only [removeName, Entry.name, beq_self_eq_true, if_true]
      exact hwfes
    · simp only [removeName, Entry.name]
      rw [if_neg (by simpa using h1)]
      simp only [wf, Bool.and_eq_true, Bool.not_eq_true']
      refine ⟨⟨?_, hwfch⟩, ihe n hwfes⟩
      by_cases h2 : anyName (removeName es n) nm = true
      · rw [anyName_removeName es n nm h2] at hany
        exact Bool.noConfusion hany
      · simpa using h2

theorem anyName_mapName : ∀ (es : EntryList) (n m : String)
    (f : EntryList → EntryList), anyName (mapName es n f) m = anyName es m := by
  intro es
  induction es using EntryList.treeInd with
  | hnil => intro n m f; simp [mapName]
  | hfile nm sz ro ok es ih =>
    intro n m f
    by_cases h1 : nm = n
    · subst h1
      simp only [mapName, Entry.name, beq_self_eq_true, if_true]
    · simp only [mapName, Entry.name]
      rw [if_neg (by simpa using h1)]
      simp [anyName, Entry.name, ih n m f]
  | hdir nm ro ch es ihc ihe =>
    intro n m f
    by_cases h1 : nm = n
    · subst h1
      simp only [mapName, Entry.name, beq_self_eq_true, if_true]
      simp [anyName, Entry.name]
    · simp only [mapName, Entry.name]
      rw [if_neg (by simpa using h1)]
      simp [anyName, Entry.name, ihe n m f]

theorem wf_mapName : ∀ (es : EntryList) (n : String) (f : EntryList → EntryList),
    wf es = true → (∀ ch, wf ch = true → wf (f ch) = true) →
    wf (mapName es n f) = true := by
  intro es
  induction es using EntryList.treeInd with
  | hnil => intro n f _ _; simp [mapName, wf]
  | hfile nm sz ro ok es ih =>
    intro n f hwf hf
    simp only [wf, Bool.and_eq_true, Bool.not_eq_true'] at hwf
    obtain ⟨hany, hwfes⟩ := hwf
    by_cases h1 : nm = n
    · subst h1
      simp only [mapName, Entry.name, beq_self_eq_true, if_true]
      simp [wf, hany, hwfes]
    · simp only [mapName, Entry.name]
      rw [if_neg (by simpa using h1)]
      simp only [wf, Bool.and_eq_true, Bool.not_eq_true']
      exact ⟨by rw [anyName_mapName]; exact hany, ih n f hwfes hf⟩
  | hdir nm ro ch es ihc ihe =>
    intro n f hwf hf
    simp only [wf, Bool.and_eq_true, Bool.not_eq_true'] at hwf
    obtain ⟨⟨hany, hwfch⟩, hwfes⟩ := hwf
    by_cases h1 : nm = n
    · subst h1
      simp only [mapName, Entry.name, beq_self_eq_true, if_true]
      simp only [wf, Bool.and_eq_true, Bool.not_eq_true']
      exact ⟨⟨hany, hf ch hwfch⟩, hwfes⟩
    · simp only [mapName, Entry.name]
      rw [if_neg (by simpa using h1)]
      simp only [wf, Bool.and_eq_true, Bool.not_eq_true']
      exact ⟨⟨by rw [anyName_mapName]; exact hany, hwfch⟩, ihe n f hwfes hf⟩

theorem wf_removeAt : ∀ (p : List String) (es : EntryList), wf es = true →
    wf (removeAt es p) = true := by
  intro p
  induction p with
  | nil => intro es hwf; exact hwf
  | cons n rest ih =>
    intro es hwf
    cases rest with
    | nil => exact wf_removeName es n hwf
    | cons r rs =>
      show wf (mapName es n (fun ch => removeAt ch (r :: rs))) = true
      exact wf_mapName es n _ hwf (fun ch hch => ih ch hch)

theorem lookup_eq_of_findName_eq {es1 es2 : EntryList} {m : String}
    {qrest : List String} (h : findName es1 m = findName es2 m) :
    lookup es1 (m :: qrest) = lookup es2 (m :: qrest) := by
  simp only [lookup, h]

theorem lookup_removeAt_preserve : ∀ (r : List String) (es : EntryList)
    (q : List String) (e : Entry), wf es = true →
    lookup (removeAt es r) q = some e →
    ∃ e0, lookup es q = some e0 ∧ e0.name = e.name := by
  intro r
  induction r with
  | nil => intro es q e _ h; exact ⟨e, h, rfl⟩
  | cons n rest ih =>
    intro es q e hwf h
    cases rest with
    | nil =>
      cases q with
      | nil => simp [lookup] at h
      | cons m qrest =>
        by_cases hnm : n = m
        · subst hnm
          rw [show removeAt es [n] = removeName es n from rfl] at h
          simp only [lookup, findName_removeName_self es n hwf] at h
          exact Option.noConfusion h
        · rw [show removeAt es [n] = removeName es n from rfl,
            lookup_eq_of_findName_eq (findName_removeName_ne es n m hnm)] at h
          exact ⟨e, h, rfl⟩
    | cons r2 rs =>
      cases q with
      | nil => simp [lookup] at h
      | cons m qrest =>
        rw [show removeAt es (n :: r2 :: rs) =
          mapName es n (fun ch => removeAt ch (r2 :: rs)) from rfl] at h
        by_cases hnm : n = m
        · subst hnm
          cases hfe : findName es n with
          | none =>
            simp only [lookup, findName_mapName_self, hfe] at h
            exact Option.noConfusion h
          | some e1 =>
            cases e1 with
            | file a b c d =>
              cases qrest with
              | nil =>
                simp only [lookup, findName_mapName_self, hfe,
                  Option.some.injEq] at h
                subst h
                exact ⟨.file a b c d, by simp [lookup, hfe], rfl⟩
              | cons x y =>
                simp only [lookup, findName_mapName_self, hfe] at h
                exact Option.noConfusion h
            | dir nm ro1 ch =>
              cases qrest with
              | nil =>
                simp only [lookup, findName_mapName_self, hfe,
                  Option.some.injEq] at h
                subst h
                exact ⟨.dir nm ro1 ch, by simp [lookup, hfe], rfl⟩
              | cons x y =>
                simp only [lookup, findName_mapName_self, hfe] at h
                rcases ih ch (x :: y) e (wf_findName_dir es n nm ro1 ch hwf hfe) h
                  with ⟨e0, he0, hname⟩
                refine ⟨e0, ?_, hname⟩
                simp only [lookup, hfe]
                exact he0
        · rw [lookup_eq_of_findName_eq
            (findName_mapName_ne es n m (fun ch => removeAt ch (r2 :: rs)) hnm)] at h
          exact ⟨e, h, rfl⟩

/-! ## Helper lemmas: one live deletion step, then the whole loop -/

theorem attemptDelete_of_lookup_none {fs : EntryList} {p : List String}
    (h : lookup fs p = none) : attemptDelete fs p = .ok fs := by
  simp [attemptDelete, h]

theorem attemptDelete_ok_cases {fs fs1 : EntryList} {p : List String}
    (h : attemptDelete fs p = .ok fs1) :
    (lookup fs p = none ∧ fs1 = fs) ∨ fs1 = removeAt fs p := by
  cases hl : lookup fs p with
  | none =>
    simp only [attemptDelete, hl] at h
    simp at h
    exact Or.inl ⟨rfl, h.symm⟩
  | some e =>
    simp only [attemptDelete, hl] at h
    by_cases hd : e.isDir = true
    · rw [if_pos hd, if_pos (rmtreeOk_total e)] at h
      simp at h
      exact Or.inr h.symm
    · rw [if_neg hd] at h
      by_cases hro : e.ro = true
      · rw [if_pos hro] at h
        simp at h
      · rw [if_neg hro] at h
        simp at h
        exact Or.inr h.symm

theorem attemptDelete_ok_lookup_none {fs fs1 : EntryList} {p : List String}
    (hwf : wf fs = true) (h : attemptDelete fs p = .ok fs1) :
    lookup fs1 p = none := by
  rcases attemptDelete_ok_cases h with ⟨hn, rfl⟩ | rfl
  · exact hn
  · exact lookup_removeAt_self p fs hwf

theorem attemptDelete_ok_wf {fs fs1 : EntryList} {p : List String}
    (hwf : wf fs = true) (h : attemptDelete fs p = .ok fs1) : wf fs1 = true := by
  rcases attemptDelete_ok_cases h with ⟨-, rfl⟩ | rfl
  · exact hwf
  · exact wf_removeAt p fs hwf

theorem attemptDelete_ok_preserve {fs fs1 : EntryList} {p : List String}
    (hwf : wf fs = true) (h : attemptDelete fs p = .ok fs1) :
    ∀ q e, lookup fs1 q = some e →
      ∃ e0, lookup fs q = some e0 ∧ e0.name = e.name := by
  rcases attemptDelete_ok_cases h with ⟨-, rfl⟩ | rfl
  · intro q e hq; exact ⟨e, hq, rfl⟩
  · intro q e hq; exact lookup_removeAt_preserve p fs q e hwf hq

theorem delete_paths_wf : ∀ (ps : List (List String)) (fs : EntryList),
    wf fs = true → wf (delete_paths fs ps false).1 = true := by
  intro ps
  induction ps with
  | nil => intro fs hwf; exact hwf
  | cons p ps ih =>
    intro fs hwf
    cases ha : attemptDelete fs p with
    | ok fs1 =>
      have hred : (delete_paths fs (p :: ps) false).1 = (delete_paths fs1 ps false).1 := by
        simp [delete_paths, ha]
      rw [hred]
      exact ih fs1 (attemptDelete_ok_wf hwf ha)
    | error u =>
      have hred : (delete_paths fs (p :: ps) false).1 = (delete_paths fs ps false).1 := by
        simp [delete_paths, ha]
      rw [hred]
      exact ih fs hwf

theorem delete_paths_preserve : ∀ (ps : List (List String)) (fs : EntryList),
    wf fs = true → ∀ (q : List String) (e : Entry),
    lookup (delete_paths fs ps false).1 q = some e →
    ∃ e0, lookup fs q = some e0 ∧ e0.name = e.name := by
  intro ps
  induction ps with
  | nil => intro fs _ q e h; exact ⟨e, h, rfl⟩
  | cons p ps ih =>
    intro fs hwf q e h
    cases ha : attemptDelete fs p with
    | ok fs1 =>
      rw [show (delete_paths fs (p :: ps) false).1 = (delete_paths fs1 ps false).1 by
        simp [delete_paths, ha]] at h
      rcases ih fs1 (attemptDelete_ok_wf hwf ha) q e h with ⟨e1, he1, hn1⟩
      rcases attemptDelete_ok_preserve hwf ha q e1 he1 with ⟨e0, he0, hn0⟩
      exact ⟨e0, he0, hn0.trans hn1⟩
    | error u =>
      rw [show (delete_paths fs (p :: ps) false).1 = (delete_paths fs ps false).1 by
        simp [delete_paths, ha]] at h
      exact ih fs hwf q e h

theorem delete_paths_lookup_none : ∀ (ps : List (List String)) (fs : EntryList),
    wf fs = true → ∀ q : List String, lookup fs q = none →
    lookup (delete_paths fs ps false).1 q = none := by
  intro ps fs hwf q hq
  cases hl : lookup (delete_paths fs ps false).1 q with
  | none => rfl
  | some e =>
    rcases delete_paths_preserve ps fs hwf q e hl with ⟨e0, he0, -⟩
    rw [hq] at he0
    exact Option.noConfusion he0

theorem delete_paths_kills : ∀ (ps : List (List String)) (fs : EntryList),
    wf fs = true → (delete_paths fs ps false).2.2 = 0 →
    ∀ p ∈ ps, lookup (delete_paths fs ps false).1 p = none := by
  intro ps
  induction ps with
  | nil => intro fs _ _ p hp; exact absurd hp (List.not_mem_nil p)
  | cons p0 ps ih =>
    intro fs hwf herr p hp
    cases ha : attemptDelete fs p0 with
    | ok fs1 =>
      have hred : delete_paths fs (p0 :: ps) false =
          ((delete_paths fs1 ps false).1, (delete_paths fs1 ps false).2.1 + 1,
            (delete_paths fs1 ps false).2.2) := by
        simp [delete_paths, ha]
      rw [hred] at herr ⊢
      simp only at herr ⊢
      have hwf1 : wf fs1 = true := attemptDelete_ok_wf hwf ha
      rcases List.mem_cons.mp hp with rfl | hp
      · exact delete_paths_lookup_none ps fs1 hwf1 p
          (attemptDelete_ok_lookup_none hwf ha)
      · exact ih fs1 hwf1 herr p hp
    | error u =>
      have hred : delete_paths fs (p0 :: ps) false =
          ((delete_paths fs ps false).1, (delete_paths fs ps false).2.1,
            (delete_paths fs ps false).2.2 + 1) := by
        simp [delete_paths, ha]
      rw [hred] at herr
      simp at herr

theorem delete_paths_sum : ∀ (ps : List (List String)) (fs : EntryList),
    (delete_paths fs ps false).2.1 + (delete_paths fs ps false).2.2 = ps.length := by
  intro ps
  induction ps with
  | nil => intro fs; rfl
  | cons p ps ih =>
    intro fs
    cases ha : attemptDelete fs p with
    | ok fs1 =>
      have hred : delete_paths fs (p :: ps) false =
          ((delete_paths fs1 ps false).1, (delete_paths fs1 ps false).2.1 + 1,
            (delete_paths fs1 ps false).2.2) := by
        simp [delete_paths, ha]
      rw [hred]
      have := ih fs1
      simp only [List.length_cons]
      omega
    | error u =>
      have hred : delete_paths fs (p :: ps) false =
          ((delete_paths fs ps false).1, (delete_paths fs ps false).2.1,
            (delete_paths fs ps false).2.2 + 1) := by
        simp [delete_paths, ha]
      rw [hred]
      have := ih fs
      simp only [List.length_cons]
      omega

/-! ## The claims -/

/-- C1 counterexample: on the tree holding file `a.c` beside directory
`a/b.c`, with pattern `*.c`, the program returns `[a/b.c, a.c]` —
`PurePath` parts ordering puts the component `a` before `a.c` — and
that list violates the full-path-string ordering the claim asserts,
since as strings `"a.c" < "a/b.c"` (`.` is U+002E, below `/` at
U+002F). -/
theorem find_paths_string_order_counterexample :
    find_paths exC1 "*.c" true = [["a", "b.c"], ["a.c"]] ∧
      ¬ List.Sorted pathLe (find_paths exC1 "*.c" true) := by
  refine ⟨rfl, ?_⟩
  rw [show find_paths exC1 "*.c" true = [["a", "b.c"], ["a.c"]] from rfl]
  intro h
  have h2 := List.rel_of_sorted_cons h ["a.c"] (by simp)
  exact absurd h2 (by decide)

/-- C1 (amended): `find_paths(root, pattern, include_dirs)` returns
exactly the entries under `root` whose bare name (not full path)
matches `pattern` with shell-wildcard semantics — directory names
exactly when `include_dirs` is true — and the returned list is sorted
by CPython `PurePath` ordering: lexicographically by the tuple of path
components, components compared by code point (`partsLe`).  That is
not full-path-string ordering, which the original claim asserted: the
two orders differ whenever a name contains a code point below `/`,
such as `.` (see `find_paths_string_order_counterexample`).  The `wf`
hypothesis is the filesystem invariant that sibling names are distinct
(every real directory tree satisfies it). -/
theorem find_paths_spec (es : EntryList) (pattern : String) (include_dirs : Bool)
    (hwf : wf es = true) :
    (∀ q : List String, q ∈ find_paths es pattern include_dirs ↔
        ∃ e, lookup es q = some e ∧ fnmatch e.name pattern = true ∧
          (include_dirs = true ∨ e.isDir = false)) ∧
      List.Sorted partsLe (find_paths es pattern include_dirs) :=
  ⟨fun q => (mem_find_paths_iff_collectAll es pattern include_dirs q).trans
      (mem_collectAll_iff pattern include_dirs es hwf q),
    find_paths_sorted es pattern include_dirs⟩

/-- C1 witness: the specification instantiated on the repository's own
test tree with pattern `*.tmp`. -/
theorem find_paths_spec_witness :
    (∀ q : List String, q ∈ find_paths sampleFs "*.tmp" true ↔
        ∃ e, lookup sampleFs q = some e ∧ fnmatch e.name "*.tmp" = true ∧
          (true = true ∨ e.isDir = false)) ∧
      List.Sorted partsLe (find_paths sampleFs "*.tmp" true) :=
  find_paths_spec sampleFs "*.tmp" true rfl

/-- C2: if a live `delete_by_name(root, pattern)` run reports no errors
(exit status 0), `find_paths` at the same pattern on the resulting tree
returns the empty list: every matched entry, including entries nested
inside matched directories, is gone. -/
theorem delete_by_name_clears (fs fs1 : EntryList) (pattern : String)
    (hwf : wf fs = true) (h : delete_by_name fs pattern false = (fs1, 0)) :
    find_paths fs1 pattern true = [] := by
  simp only [delete_by_name] at h
  by_cases hemp : (find_paths fs pattern true).isEmpty = true
  · rw [if_pos hemp] at h
    have hfs : fs = fs1 := congrArg Prod.fst h
    subst hfs
    exact List.isEmpty_iff.mp hemp
  · rw [if_neg hemp] at h
    have h1 : (delete_paths fs (find_paths fs pattern true) false).1 = fs1 :=
      congrArg Prod.fst h
    have h2 : (if (delete_paths fs (find_paths fs pattern true) false).2.2 = 0
        then (0 : Nat) else 1) = 0 := congrArg Prod.snd h
    have herr : (delete_paths fs (find_paths fs pattern true) false).2.2 = 0 := by
      by_cases he : (delete_paths fs (find_paths fs pattern true) false).2.2 = 0
      · exact he
      · rw [if_neg he] at h2
        exact absurd h2 one_ne_zero
    rw [List.eq_nil_iff_forall_not_mem]
    intro q hq
    have hwf1 : wf fs1 = true := h1 ▸ delete_paths_wf _ fs hwf
    have hq2 := (mem_collectAll_iff pattern true fs1 hwf1 q).mp
      ((mem_find_paths_iff_collectAll fs1 pattern true q).mp hq)
    rcases hq2 with ⟨e, he, hm, -⟩
    rw [← h1] at he
    rcases delete_paths_preserve _ fs hwf q e he with ⟨e0, he0, hn0⟩
    have hq0 : q ∈ find_paths fs pattern true :=
      (mem_find_paths_iff_collectAll fs pattern true q).mpr
        ((mem_collectAll_iff pattern true fs hwf q).mpr
          ⟨e0, he0, by rw [hn0]; exact hm, Or.inl rfl⟩)
    have hkill := delete_paths_kills _ fs hwf herr q hq0
    rw [hkill] at he
    exact Option.noConfusion he

/-- C2 witness: deleting `*.tmp` from the repository's test tree
(`a.tmp`, `b.log`, `nested/c.tmp`) succeeds with exit status 0 and a
second search finds nothing. -/
theorem delete_by_name_clears_witness :
    wf sampleFs = true ∧
      delete_by_name sampleFs "*.tmp" false = (sampleFsAfter, 0) ∧
      find_paths sampleFsAfter "*.tmp" true = [] :=
  ⟨rfl, rfl, delete_by_name_clears sampleFs sampleFsAfter "*.tmp" rfl rfl⟩

/-- C4: during live deletion of a directory tree, a removal that fails
solely because of the read-only attribute is remediated: the bare OS
removal errors on a read-only entry, `_on_rm_error` clears the
attribute and retries that removal exactly once (see
`on_rm_error_retry`), the retry succeeds, `rmtree` with the handler
therefore completes on every tree, and the directory path counts as
deleted (never as a failure). -/
theorem rmtree_readonly_retry (ro : Bool) (e : Entry) (fs : EntryList)
    (p : List String) (hro : ro = true) (hl : lookup fs p = some e)
    (hd : e.isDir = true) :
    osRemove ro = .error () ∧ on_rm_error_retry ro = .ok () ∧ rmtreeOk e = true ∧
      delete_paths fs [p] false = (removeAt fs p, 1, 0) := by
  subst hro
  refine ⟨rfl, rfl, rmtreeOk_total e, ?_⟩
  have ha : attemptDelete fs p = .ok (removeAt fs p) := by
    simp [attemptDelete, hl, hd, rmtreeOk_total e]
  simp [delete_paths, ha]

/-- C4 witness: a read-only directory containing a read-only file is
deleted, counted as 1 deletion and 0 errors. -/
theorem rmtree_readonly_retry_witness :
    osRemove true = .error () ∧ on_rm_error_retry true = .ok () ∧
      rmtreeOk (.dir "d" true (.cons (.file "x" 1 true true) .nil)) = true ∧
      delete_paths sampleRo [["d"]] false = (removeAt sampleRo ["d"], 1, 0) :=
  rmtree_readonly_retry true (.dir "d" true (.cons (.file "x" 1 true true) .nil))
    sampleRo ["d"] rfl rfl rfl

/-- C5: live `delete_paths` treats an already-absent path as a success
with no filesystem change (`unlink(missing_ok=True)`), catches every
other per-item failure while incrementing the error counter and
continuing with the next path, so the returned tally always satisfies
`deleted + errors = number of input paths`. -/
theorem delete_paths_tally :
    (∀ (fs : EntryList) (p : List String), lookup fs p = none →
        attemptDelete fs p = .ok fs) ∧
    (∀ (fs : EntryList) (ps : List (List String)),
        (delete_paths fs ps false).2.1 + (delete_paths fs ps false).2.2 =
          ps.length) :=
  ⟨fun _ _ h => attemptDelete_of_lookup_none h,
    fun fs ps => delete_paths_sum ps fs⟩

/-- C5 witness: on the sample tree, deleting `a.tmp`, an absent path
and a read-only file gives 2 deletions and 1 error, summing to 3. -/
theorem delete_paths_tally_witness :
    attemptDelete sampleFs ["zzz"] = .ok sampleFs ∧
      (delete_paths sampleRo [["d", "x"], ["zzz"], ["d"]] false).2.1 +
        (delete_paths sampleRo [["d", "x"], ["zzz"], ["d"]] false).2.2 = 3 :=
  ⟨delete_paths_tally.1 sampleFs ["zzz"] rfl,
    delete_paths_tally.2 sampleRo [["d", "x"], ["zzz"], ["d"]]⟩

/-! ## Dry-run frame lemmas -/

theorem delete_paths_dry : ∀ (ps : List (List String)) (fs : EntryList),
    delete_paths fs ps true = (fs, ps.length, 0) := by
  intro ps
  induction ps with
  | nil => intro fs; rfl
  | cons p ps ih =>
    intro fs
    simp [delete_paths, ih fs]

theorem remove_empty_dirs_dry : ∀ es : EntryList,
    remove_empty_dirs es true = (es, count_empty_now es, 0) := by
  intro es
  induction es using EntryList.treeInd with
  | hnil => rfl
  | hfile n sz ro ok es ih =>
    simp [remove_empty_dirs, count_empty_now, ih]
  | hdir n ro ch es ihc ihe =>
    simp only [remove_empty_dirs, ihc, ihe]
    by_cases hch : ch.isEmpty = true
    · simp [hch, count_empty_now, Prod.ext_iff]
      omega
    · simp [hch, count_empty_now, Prod.ext_iff]

/-- C3: dry-run deletion and dry-run pruning leave the tree completely
unchanged while still incrementing the success counter once per
reported candidate (each input path for deletion; each
currently-empty directory for pruning) and reporting no errors. -/
theorem dry_run_frame :
    (∀ (fs : EntryList) (ps : List (List String)),
        delete_paths fs ps true = (fs, ps.length, 0)) ∧
    (∀ es : EntryList, remove_empty_dirs es true = (es, count_empty_now es, 0)) :=
  ⟨fun fs ps => delete_paths_dry ps fs, remove_empty_dirs_dry⟩

/-- C6: `calculate_folder_size` returns the (nonnegative) sum of the
sizes of exactly the regular files whose metadata is readable; a file
whose `stat` fails is skipped without aborting the walk, directories
contribute nothing, and the result is a lower bound on the sum over
all regular files. -/
theorem calculate_folder_size_spec : ∀ es : EntryList,
    calculate_folder_size es =
        (((allFiles es).filter (fun f => f.2)).map (fun f => f.1)).sum ∧
      calculate_folder_size es ≤ ((allFiles es).map (fun f => f.1)).sum := by
  intro es
  induction es using EntryList.treeInd with
  | hnil => exact ⟨rfl, Nat.le_refl 0⟩
  | hfile n sz ro ok es ih =>
    obtain ⟨ih1, ih2⟩ := ih
    by_cases hok : ok = true
    · constructor
      · simp [calculate_folder_size, allFiles, hok, ih1]
      · simp only [calculate_folder_size, allFiles, hok, if_true, List.map_cons,
          List.sum_cons]
        omega
    · simp only [Bool.not_eq_true] at hok
      constructor
      · simp [calculate_folder_size, allFiles, hok, ih1]
      · simp [calculate_folder_size, allFiles, hok]
        omega
  | hdir n ro ch es ihc ihe =>
    obtain ⟨ihc1, ihc2⟩ := ihc
    obtain ⟨ihe1, ihe2⟩ := ihe
    constructor
    · simp [calculate_folder_size, allFiles, List.filter_append, List.map_append,
        List.sum_append, ihc1, ihe1]
    · simp only [calculate_folder_size, allFiles, List.map_append, List.sum_append]
      omega

set_option maxRecDepth 20000 in
/-- C7 counterexample: at `n = 9007259727880519` (just above `2^53`)
`float(n)` rounds to `9007259727880520`, and the program prints the
two-decimal rendering of that float divided by `1024^4` — `8192.06 TB`
— not the rendering `8192.05 TB` of the exact `n/1024^4` the claim
asserts for every byte count; and at `n = 2^1024` the program raises
`OverflowError` in `float(size)` instead of returning any TB string. -/
theorem human_size_float_counterexample :
    human_size 9007259727880519 =
        .ok (format2 9007259727880520 1099511627776 ++ " " ++ "TB") ∧
      human_size 9007259727880519 ≠
        .ok (format2 9007259727880519 1099511627776 ++ " " ++ "TB") ∧
      human_size (2 ^ 1024) = .error () := by
  refine ⟨rfl, ?_, rfl⟩
  intro hEq
  have h1 : human_size 9007259727880519 =
      .ok (format2 9007259727880520 1099511627776 ++ " " ++ "TB") := rfl
  have h2 : (format2 9007259727880520 1099511627776 ++ " " ++ "TB") =
      (format2 9007259727880519 1099511627776 ++ " " ++ "TB") :=
    Except.ok.inj (h1.symm.trans hEq)
  exact absurd h2 (by decide)

/-- C7 (amended): for every byte count below `2^53` — where
`float(size)` is exact — `human_size` formats the count with binary
1024-based unit steps B, KB, MB, GB, TB to two decimal places
(`format2`, the exact value of `f"{result:.2f}"`), choosing the first
unit under which the scaled value is below 1024 and capping at TB
(the thresholds below are `1024^2`, `1024^3`, `1024^4`): every such
`n >= 1024^4` is rendered in TB, and the displayed value can reach
1024 or more, as at `n = 1024^5`.  At and above `2^53` the program
formats the rounded `float(n)` instead of `n`, and raises
`OverflowError` once `float(n)` overflows — the two behaviours the
original unrestricted claim missed (see
`human_size_float_counterexample`). -/
theorem human_size_spec (n : Nat) (h : n < 9007199254740992) :
    human_size n = .ok
        (if n < 1024 then format2 n 1 ++ " " ++ "B"
         else if n < 1048576 then format2 n 1024 ++ " " ++ "KB"
         else if n < 1073741824 then format2 n 1048576 ++ " " ++ "MB"
         else if n < 1099511627776 then format2 n 1073741824 ++ " " ++ "GB"
         else format2 n 1099511627776 ++ " " ++ "TB") ∧
      (1099511627776 ≤ n →
        human_size n = .ok (format2 n 1099511627776 ++ " " ++ "TB")) ∧
      human_size 1125899906842624 = .ok "1024.00 TB" := by
  have hf : human_size n = .ok (human_size_go sizeUnits n 1) := by
    simp [human_size, floatOfNat, h]
  have hgo : human_size_go sizeUnits n 1 =
      (if n < 1024 then format2 n 1 ++ " " ++ "B"
       else if n < 1048576 then format2 n 1024 ++ " " ++ "KB"
       else if n < 1073741824 then format2 n 1048576 ++ " " ++ "MB"
       else if n < 1099511627776 then format2 n 1073741824 ++ " " ++ "GB"
       else format2 n 1099511627776 ++ " " ++ "TB") := by
    by_cases h1 : n < 1024
    · simp [sizeUnits, human_size_go, h1]
    · by_cases h2 : n < 1048576
      · simp [sizeUnits, human_size_go, h1, h2]
      · by_cases h3 : n < 1073741824
        · simp [sizeUnits, human_size_go, h1, h2, h3]
        · by_cases h4 : n < 1099511627776
          · simp [sizeUnits, human_size_go, h1, h2, h3, h4]
          · simp [sizeUnits, human_size_go, h1, h2, h3, h4]
  refine ⟨by rw [hf, hgo], fun hc => ?_, rfl⟩
  rw [hf, hgo, if_neg (by omega), if_neg (by omega), if_neg (by omega),
    if_neg (by omega)]

/-- C7 witness: the amended specification applied at `n = 1024^4`
itself (below `2^53`, at the TB threshold). -/
theorem human_size_spec_witness :
    human_size 1099511627776 =
        .ok (format2 1099511627776 1099511627776 ++ " " ++ "TB") ∧
      human_size 1125899906842624 = .ok "1024.00 TB" :=
  ⟨(human_size_spec 1099511627776 (by norm_num)).2.1 (by norm_num),
    (human_size_spec 1099511627776 (by norm_num)).2.2⟩

/-! ## Helper lemmas: live pruning -/

theorem pruneLive_isEmpty : ∀ es : EntryList,
    (pruneLive es).isEmpty = !hasFile es := by
  intro es
  induction es using EntryList.treeInd with
  | hnil => rfl
  | hfile n sz ro ok es ih => simp [pruneLive, hasFile, EntryList.isEmpty]
  | hdir n ro ch es ihc ihe =>
    by_cases hch : hasFile ch = true
    · simp [pruneLive, hasFile, EntryList.isEmpty, hch]
    · simp only [Bool.not_eq_true] at hch
      simp [pruneLive, hasFile, hch, ihe]

theorem remove_empty_dirs_live : ∀ es : EntryList, noRoDirs es = true →
    remove_empty_dirs es false = (pruneLive es, count_prunable es, 0) := by
  intro es
  induction es using EntryList.treeInd with
  | hnil => intro _; rfl
  | hfile n sz ro ok es ih =>
    intro hro
    simp only [noRoDirs] at hro
    simp [remove_empty_dirs, pruneLive, count_prunable, ih hro]
  | hdir n ro ch es ihc ihe =>
    intro hro
    simp only [noRoDirs, Bool.and_eq_true, Bool.not_eq_true'] at hro
    obtain ⟨⟨hron, hroch⟩, hroes⟩ := hro
    subst hron
    simp only [remove_empty_dirs, ihc hroch, ihe hroes]
    by_cases hch : hasFile ch = true
    · have hne : (pruneLive ch).isEmpty = false := by
        rw [pruneLive_isEmpty, hch]; rfl
      simp [hch, hne, pruneLive, count_prunable, Prod.ext_iff]
    · simp only [Bool.not_eq_true] at hch
      have hne : (pruneLive ch).isEmpty = true := by
        rw [pruneLive_isEmpty, hch]; rfl
      simp [hch, hne, pruneLive, count_prunable, Prod.ext_iff]
      omega

/-- C8: live `remove_empty_dirs` processes each directory's descendants
before the directory itself (`os.walk(root, topdown=False)`), so a
directory that becomes empty only because its children were pruned is
removed in the same pass: with no read-only directory in the way, one
pass leaves exactly the directories whose subtree contains a regular
file and removes `count_prunable` directories with no errors; in
particular one pass on `root/a/b` (both empty) removes both `b` and
`a`.  The root itself is never a removal candidate: the state is the
root's child listing and only `Path(current_root)/name` children are
ever passed to `rmdir`, so the root directory survives every pass by
construction. -/
theorem remove_empty_dirs_bottom_up (es : EntryList) (hro : noRoDirs es = true) :
    remove_empty_dirs es false = (pruneLive es, count_prunable es, 0) ∧
      remove_empty_dirs sampleAB false = (.nil, 2, 0) :=
  ⟨remove_empty_dirs_live es hro, rfl⟩

/-- C8 witness: the bottom-up cascade on `root/a/b`. -/
theorem remove_empty_dirs_bottom_up_witness :
    remove_empty_dirs sampleAB false =
        (pruneLive sampleAB, count_prunable sampleAB, 0) ∧
      remove_empty_dirs sampleAB false = (.nil, 2, 0) :=
  remove_empty_dirs_bottom_up sampleAB rfl

/-! ## Helper lemmas: idempotence of live pruning -/

theorem noEmptyDirs_of_prune : ∀ es : EntryList,
    (remove_empty_dirs es false).2.2 = 0 →
    noEmptyDirs (remove_empty_dirs es false).1 = true := by
  intro es
  induction es using EntryList.treeInd with
  | hnil => intro _; rfl
  | hfile n sz ro ok es ih =>
    intro herr
    simp only [remove_empty_dirs] at herr ⊢
    simp only [noEmptyDirs]
    exact ih herr
  | hdir n ro ch es ihc ihe =>
    intro herr
    simp only [remove_empty_dirs] at herr ⊢
    by_cases hemp : (remove_empty_dirs ch false).1.isEmpty = true
    · rw [if_pos hemp] at herr ⊢
      by_cases hro : ro = true
      · rw [if_neg (by simp), if_pos hro] at herr
        simp at herr
      · rw [if_neg (by simp), if_neg hro] at herr ⊢
        simp only at herr
        exact ihe (by omega)
    · rw [if_neg hemp] at herr ⊢
      simp only at herr
      simp only [noEmptyDirs, Bool.and_eq_true, Bool.not_eq_true']
      refine ⟨⟨by simpa using hemp, ihc (by omega)⟩, ihe (by omega)⟩

theorem prune_of_noEmptyDirs : ∀ es : EntryList, noEmptyDirs es = true →
    remove_empty_dirs es false = (es, 0, 0) := by
  intro es
  induction es using EntryList.treeInd with
  | hnil => intro _; rfl
  | hfile n sz ro ok es ih =>
    intro hne
    simp only [noEmptyDirs] at hne
    simp [remove_empty_dirs, ih hne]
  | hdir n ro ch es ihc ihe =>
    intro hne
    simp only [noEmptyDirs, Bool.and_eq_true, Bool.not_eq_true'] at hne
    obtain ⟨⟨hch, hnech⟩, hnees⟩ := hne
    simp [remove_empty_dirs, ihc hnech, ihe hnees, hch]

/-- C9: live `remove_empty_dirs` is idempotent: after one error-free
pass, a second pass on the resulting tree changes nothing, removes 0
directories and reports 0 errors. -/
theorem remove_empty_dirs_idem (es : EntryList)
    (herr : (remove_empty_dirs es false).2.2 = 0) :
    remove_empty_dirs (remove_empty_dirs es false).1 false =
      ((remove_empty_dirs es false).1, 0, 0) :=
  prune_of_noEmptyDirs _ (noEmptyDirs_of_prune es herr)

/-- C9 witness: idempotence after pruning the repository's test tree
(`file1.txt`, `empty_dir/`, `non_empty/file2.txt`). -/
theorem remove_empty_dirs_idem_witness :
    remove_empty_dirs (remove_empty_dirs sampleCleanup false).1 false =
      ((remove_empty_dirs sampleCleanup false).1, 0, 0) :=
  remove_empty_dirs_idem sampleCleanup rfl

/-- C10: dry-run `remove_empty_dirs` counts exactly the directories
that are already empty in the unmodified tree, not those a cascade
would empty, so its count can be strictly below the live run's: on
`root/a/b` (both empty) the dry run reports 1 candidate while the live
run removes 2 directories. -/
theorem dry_prune_counts_current_empties :
    (∀ es : EntryList, (remove_empty_dirs es true).2.1 = count_empty_now es) ∧
      (remove_empty_dirs sampleAB true).2.1 = 1 ∧
      (remove_empty_dirs sampleAB false).2.1 = 2 :=
  ⟨fun es => by rw [remove_empty_dirs_dry es], rfl, rfl⟩
